import Mathlib

/-!
Verification of the `amm-simulator` time-manager CLI (`src/time_manager/cli.py`)
against its natural-language specification.

The Python source is shallowly embedded: pure functions become Lean functions
over `List Char` / `String`, Python `int` becomes `Nat`/`Int`, fallible code
returns `Except String`.  Python `float`s appear only in `parse_duration`
(the hour component) and in `analyze_totals` (the `0.6` threshold); both are
modelled by exact rational arithmetic expressed over `Nat`/`Int` so that every
definition evaluates in the kernel, and the claim-facing theorems relate the
definitions to the real-valued formulas of the spec.
-/

namespace TimeManager

/-- Characters Python's `str.strip` and the regex class `\s` treat as
whitespace (ASCII part; the embedding restricts to ASCII whitespace). -/
def isPySpace (c : Char) : Bool :=
  c = ' ' || c = '\t' || c = '\n' || c = '\r' || c = '\x0b' || c = '\x0c'

/-- Python `str.strip()`: drop leading and trailing whitespace. -/
def pyStrip (cs : List Char) : List Char :=
  ((cs.dropWhile isPySpace).reverse.dropWhile isPySpace).reverse

/-- Value of a list of decimal digit characters, as `int(...)` computes it. -/
def digitsVal (cs : List Char) : Nat :=
  cs.foldl (fun a c => 10 * a + (c.toNat - 48)) 0

/-- Test for `re.fullmatch(r"\d+", value)`: nonempty and all decimal digits. -/
def isAllDigits (cs : List Char) : Bool :=
  !cs.isEmpty && cs.all Char.isDigit

/-- Attempt of the regex `(\d+(?:\.\d+)?)h` at the head of `cs`: a nonempty
run of digits, an optional fractional part, then a literal `h`.  The matched
group is returned as an exact rational, numerator/denominator pair
(`"1.5"` gives `(15, 10)`); for Python regexes, maximal munch of each `\d+`
is equivalent to greedy matching with backtracking here, because a shorter
digit run leaves a digit where `.` or `h` is required. -/
def tryHourAt (cs : List Char) : Option (Nat × Nat) :=
  let ds := cs.takeWhile Char.isDigit
  if ds.isEmpty then none
  else
    match cs.drop ds.length with
    | 'h' :: _ => some (digitsVal ds, 1)
    | '.' :: rest =>
      let fs := rest.takeWhile Char.isDigit
      if fs.isEmpty then none
      else
        match rest.drop fs.length with
        | 'h' :: _ => some (digitsVal ds * 10 ^ fs.length + digitsVal fs, 10 ^ fs.length)
        | _ => none
    | _ => none

/-- The search `re.search(r"(\d+(?:\.\d+)?)h", value)`: leftmost position at
which `tryHourAt` matches. -/
def searchHour : List Char → Option (Nat × Nat)
  | [] => none
  | c :: rest =>
    match tryHourAt (c :: rest) with
    | some v => some v
    | none => searchHour rest

/-- Attempt of the regex `(\d+)m` at the head of `cs`. -/
def tryMinAt (cs : List Char) : Option Nat :=
  let ds := cs.takeWhile Char.isDigit
  if ds.isEmpty then none
  else
    match cs.drop ds.length with
    | 'm' :: _ => some (digitsVal ds)
    | _ => none

/-- The search `re.search(r"(\d+)m", value)`. -/
def searchMin : List Char → Option Nat
  | [] => none
  | c :: rest =>
    match tryMinAt (c :: rest) with
    | some v => some v
    | none => searchMin rest

/-- Normalisation `value.strip().lower()` performed by `parse_duration`
(`Char.toLower` lowercases the ASCII letters, which is all the regexes
care about). -/
def durNorm (s : String) : List Char :=
  (pyStrip s.toList).map Char.toLower

/-- Hour value found by `parse_duration` in a normalised token, as a
numerator/denominator pair; `(0, 1)` when the hour regex does not match,
exactly as the Python variable `hours` stays `0`. -/
def hourParts (v : List Char) : Nat × Nat :=
  (searchHour v).getD (0, 1)

/-- Minute value found by `parse_duration` in a normalised token; `0` when
the minute regex does not match, as the Python variable `minutes` stays `0`. -/
def minVal (v : List Char) : Nat :=
  (searchMin v).getD 0

/-- The hour value as an exact rational, for claim-facing statements. -/
def hourQ (v : List Char) : ℚ :=
  ((hourParts v).1 : ℚ) / ((hourParts v).2 : ℚ)

/-- Embedding of `parse_duration` (src/time_manager/cli.py, lines 48-63).
All-digit tokens are returned directly; otherwise the hour and minute
components are extracted by regex search and the result is
`int(hours * 60 + minutes)`.  The Python `float` value `hours = num/den` is
modelled exactly: for nonnegative values `int` truncation is the floor, and
`⌊(num/den) * 60 + m⌋ = (60 * num + m * den) / den` in natural division,
which is the form used here so that the definition evaluates.  The guard
`hours == 0 and minutes == 0` compares the parsed VALUES (a found `0h`/`0m`
component still counts as zero), faithfully to the source. -/
def parse_duration (value : String) : Except String Nat :=
  let v := durNorm value
  if isAllDigits v then .ok (digitsVal v)
  else
    let hn := (hourParts v).1
    let hd := (hourParts v).2
    let m := minVal v
    if hn = 0 ∧ m = 0 then .error ("Unable to parse duration: " ++ String.mk v)
    else .ok ((60 * hn + m * hd) / hd)

example : parse_duration "90" = .ok 90 := rfl
example : parse_duration "90m" = .ok 90 := rfl
example : parse_duration "1.5h" = .ok 90 := rfl
example : parse_duration "2h30m" = .ok 150 := rfl
example : parse_duration " 2H30M " = .ok 150 := rfl
example : parse_duration "" = .error "Unable to parse duration: " := rfl
example : parse_duration "abc" = .error "Unable to parse duration: abc" := rfl
example : parse_duration "0m" = .error "Unable to parse duration: 0m" := rfl
example : parse_duration "0.5h" = .ok 30 := rfl

theorem tryHourAt_den_pos (cs : List Char) (p : Nat × Nat) (h : tryHourAt cs = some p) :
    0 < p.2 := by
  simp only [tryHourAt] at h
  split at h
  · exact absurd h (by simp)
  · split at h
    · cases h; exact Nat.one_pos
    · split at h
      · exact absurd h (by simp)
      · split at h
        · cases h; exact Nat.pos_pow_of_pos _ (by omega)
        · exact absurd h (by simp)
    · exact absurd h (by simp)

theorem searchHour_den_pos (cs : List Char) (p : Nat × Nat) (h : searchHour cs = some p) :
    0 < p.2 := by
  induction cs with
  | nil => exact absurd h (by simp [searchHour])
  | cons c rest ih =>
    unfold searchHour at h
    split at h
    · next v hv => cases h; exact tryHourAt_den_pos _ _ hv
    · exact ih h

theorem hourParts_den_pos (v : List Char) : 0 < (hourParts v).2 := by
  unfold hourParts
  cases hs : searchHour v with
  | none => simp
  | some p => simpa using searchHour_den_pos v p hs

/-- The natural-division form used by the embedding of `parse_duration` agrees
with the exact floor of `hours * 60 + minutes`. -/
theorem div_form_eq_floor (hn hd m : Nat) (hpos : 0 < hd) :
    (60 * hn + m * hd) / hd
      = ⌊((hn : ℚ) / (hd : ℚ)) * 60⌋₊ + m := by
  have hcast : ((hn : ℚ) / (hd : ℚ)) * 60 = ((60 * hn : ℕ) : ℚ) / ((hd : ℕ) : ℚ) := by
    push_cast
    ring
  rw [hcast, Nat.floor_div_nat, Nat.floor_natCast, Nat.add_mul_div_right _ _ hpos]

theorem hourQ_nonneg (v : List Char) : 0 ≤ hourQ v :=
  div_nonneg (Nat.cast_nonneg _) (Nat.cast_nonneg _)

/-- C1 counterexample: the token `"0m"` is not all digits and the minute regex
finds the component `0m` (so by the claim `parse_duration` should succeed),
yet the code raises `ParseError`, because its guard tests the parsed values
`hours == 0 and minutes == 0`, not whether a component was found. -/
theorem parse_duration_zero_minute_refutes :
    searchMin (durNorm "0m") = some 0
      ∧ isAllDigits (durNorm "0m") = false
      ∧ parse_duration "0m" = .error "Unable to parse duration: 0m" :=
  ⟨rfl, rfl, rfl⟩

/-- C1 (amended): `parse_duration` fails exactly when the token is not all
digits and the hour and minute values parsed from the components are both
zero — in particular when no component is found at all, for the empty string,
and for tokens with no digits; a component whose value is zero (`"0h"`,
`"0m"`) also fails. -/
theorem parse_duration_failure_characterisation :
    (∀ s : String, (parse_duration s).isOk = false ↔
        isAllDigits (durNorm s) = false
          ∧ (hourParts (durNorm s)).1 = 0 ∧ minVal (durNorm s) = 0)
    ∧ (parse_duration "").isOk = false
    ∧ (parse_duration "abc").isOk = false := by
  refine ⟨fun s => ?_, rfl, rfl⟩
  simp only [parse_duration]
  split
  · next hd => simp [Except.isOk, Except.toBool, hd]
  · next hd =>
    split
    · next hz =>
      simp [Except.isOk, Except.toBool, Bool.eq_false_iff.mpr hd, hz.1, hz.2]
    · next hz =>
      simp [Except.isOk, Except.toBool, Bool.eq_false_iff.mpr hd, hz]

/-- C2 counterexample: `"0h"` contains an hour component with number `h = 0`
(the regex group is `0`), so by the claim `parse_duration` should return
`floor(0 * 60) + 0 = 0`; the code raises `ParseError` instead. -/
theorem parse_duration_zero_hour_refutes :
    searchHour (durNorm "0h") = some (0, 1)
      ∧ isAllDigits (durNorm "0h") = false
      ∧ parse_duration "0h" = .error "Unable to parse duration: 0h" :=
  ⟨rfl, rfl, rfl⟩

/-- C2 (amended): for every token that is not all digits, whenever the hour
component value `h` and minute component value `m` (absent components
counting as 0) are not both zero, `parse_duration` returns
`floor(h * 60) + m`, and the truncation applied to the final sum agrees with
it (`floor(h * 60 + m) = floor(h * 60) + m`); an all-digit token is returned
directly as minutes, and `"2h30m" = 150`, `"1.5h" = 90`, `"90" = 90`. -/
theorem parse_duration_value_formula :
    (∀ s : String, isAllDigits (durNorm s) = false →
        ((hourParts (durNorm s)).1 ≠ 0 ∨ minVal (durNorm s) ≠ 0) →
        parse_duration s = .ok (⌊hourQ (durNorm s) * 60⌋₊ + minVal (durNorm s))
          ∧ ⌊hourQ (durNorm s) * 60 + (minVal (durNorm s) : ℚ)⌋₊
              = ⌊hourQ (durNorm s) * 60⌋₊ + minVal (durNorm s))
    ∧ (∀ s : String, isAllDigits (durNorm s) = true →
        parse_duration s = .ok (digitsVal (durNorm s)))
    ∧ parse_duration "2h30m" = .ok 150
    ∧ parse_duration "1.5h" = .ok 90
    ∧ parse_duration "90" = .ok 90 := by
  refine ⟨fun s hnd hnz => ⟨?_, ?_⟩, fun s hd => ?_, rfl, rfl, rfl⟩
  · simp only [parse_duration]
    rw [if_neg (by simp [hnd]), if_neg (by tauto)]
    have := div_form_eq_floor (hourParts (durNorm s)).1 (hourParts (durNorm s)).2
      (minVal (durNorm s)) (hourParts_den_pos (durNorm s))
    rw [this]
    rfl
  · exact Nat.floor_add_nat (mul_nonneg (hourQ_nonneg _) (by norm_num)) _
  · simp only [parse_duration]
    rw [if_pos (by simp [hd])]

/-- One logged activity, as the dataclass `TimeEntry` of the source.  The
timestamp is the ISO string the code formats from the wall clock; the
embedding passes it in explicitly. -/
structure TimeEntry where
  timestamp : String
  activity : String
  duration_minutes : Int
  note : String
deriving DecidableEq

/-- A recorded brainstorm, as the dataclass `BrainstormPrompt`. -/
structure BrainstormPrompt where
  timestamp : String
  topic : String
  thoughts : String
deriving DecidableEq

/-- The literal marker `note:` used by the entry parser. -/
def noteMarker : List Char := ['n', 'o', 't', 'e', ':']

/-- Split `cs` at the first occurrence of `pat`, as Python's
`text.split(pat, 1)` does when `pat in text`; `none` when `pat` does not
occur. -/
def splitOnFirst (pat : List Char) : List Char → Option (List Char × List Char)
  | [] => if pat.isPrefixOf [] then some ([], ([] : List Char).drop pat.length) else none
  | c :: rest =>
    if pat.isPrefixOf (c :: rest) then some ([], (c :: rest).drop pat.length)
    else (splitOnFirst pat rest).map (fun pr => (c :: pr.1, pr.2))

/-- The `note:` handling at the top of `parse_voice_or_text_input`: when the
marker occurs, the text before it continues to the duration search and the
trimmed text after it becomes the note; otherwise the whole line continues
and the note is empty. -/
def noteSplit (text : String) : List Char × List Char :=
  match splitOnFirst noteMarker text.toList with
  | some (pre, post) => (pre, pyStrip post)
  | none => (text.toList, [])

/-- Attempt of the regex `for\s+([^\s]+)` at the head of `cs`: the literal
`for`, one or more whitespace characters, then a maximal nonempty run of
non-whitespace characters (the duration token).  Maximal munch of `\s+` and
`[^\s]+` is equivalent to Python's greedy matching with backtracking here. -/
def tryForAt : List Char → Option (List Char)
  | 'f' :: 'o' :: 'r' :: rest =>
    let ws := rest.takeWhile isPySpace
    if ws.isEmpty then none
    else
      let tok := (rest.drop ws.length).takeWhile (fun c => !isPySpace c)
      if tok.isEmpty then none else some tok
  | _ => none

/-- The search `re.search(r"for\s+([^\s]+)", text)`: leftmost match, returned
as the match start index (Python `duration_match.start()`) and the captured
duration token. -/
def searchForClause : List Char → Option (Nat × List Char)
  | [] => none
  | c :: rest =>
    match tryForAt (c :: rest) with
    | some tok => some (0, tok)
    | none => (searchForClause rest).map (fun p => (p.1 + 1, p.2))

/-- The steps of `parse_voice_or_text_input` after the `note:` split: find
the mandatory `for <token>` clause, parse the token as a duration
(propagating its failure), and take the trimmed text strictly before the
match as the activity, rejecting an empty activity. -/
def parseFromBody (now : String) (body note : List Char) : Except String TimeEntry :=
  match searchForClause body with
  | none => .error "Input must include duration with 'for <duration>'."
  | some (start, tok) =>
    match parse_duration (String.mk tok) with
    | .error e => .error e
    | .ok dur =>
      let activity := pyStrip (body.take start)
      if activity.isEmpty then .error "Activity cannot be empty."
      else .ok ⟨now, String.mk activity, (dur : Int), String.mk note⟩

/-- Embedding of `parse_voice_or_text_input` (src/time_manager/cli.py,
lines 66-80).  The wall-clock timestamp `dt.datetime.now()` is passed in as
the parameter `now`. -/
def parse_voice_or_text_input (now text : String) : Except String TimeEntry :=
  parseFromBody now (noteSplit text).1 (noteSplit text).2

example : parse_voice_or_text_input "T" "Writing report for 45m note: status update"
    = .ok ⟨"T", "Writing report", 45, "status update"⟩ := rfl
example : parse_voice_or_text_input "T" "Work for 1h" = .ok ⟨"T", "Work", 60, ""⟩ := rfl
example : parse_voice_or_text_input "T" "for 10m" = .error "Activity cannot be empty." := rfl
example : parse_voice_or_text_input "T" "Work hard" =
    .error "Input must include duration with 'for <duration>'." := rfl

/-- Helper: a successful `parseFromBody` stores exactly the supplied note. -/
theorem parseFromBody_note (now : String) (body note : List Char) (e : TimeEntry)
    (h : parseFromBody now body note = .ok e) : e.note = String.mk note := by
  unfold parseFromBody at h
  split at h
  · exact absurd h (by simp)
  · split at h
    · exact absurd h (by simp)
    · simp only at h
      split at h
      · exact absurd h (by simp)
      · cases h; rfl

/-- C3: the entry parser on the spec's examples, and its two failure modes:
no `for <token>` clause in the searched text, and an empty activity. -/
theorem entry_parser_examples :
    (∀ now, parse_voice_or_text_input now "Writing report for 45m note: status update"
        = .ok ⟨now, "Writing report", 45, "status update"⟩)
    ∧ (∀ now, parse_voice_or_text_input now "Work for 1h" = .ok ⟨now, "Work", 60, ""⟩)
    ∧ (∀ now s, searchForClause (noteSplit s).1 = none →
        parse_voice_or_text_input now s
          = .error "Input must include duration with 'for <duration>'.")
    ∧ (∀ now, parse_voice_or_text_input now "for 10m" = .error "Activity cannot be empty.") := by
  refine ⟨fun now => rfl, fun now => rfl, fun now s h => ?_, fun now => rfl⟩
  unfold parse_voice_or_text_input parseFromBody
  rw [h]

/-- C3 witness: concrete instance of the missing-`for`-clause failure. -/
theorem entry_parser_examples_witness :
    searchForClause (noteSplit "Work hard").1 = none
      ∧ parse_voice_or_text_input "T" "Work hard"
          = .error "Input must include duration with 'for <duration>'." :=
  ⟨rfl, entry_parser_examples.2.2.1 "T" "Work hard" rfl⟩

/-- C4: the parser splits at the first `note:` occurrence of the ORIGINAL
text before searching for the duration clause: the rest of the parse runs on
the text before the marker with the trimmed text after it as the note, so a
successful parse stores exactly that trimmed text, and a duration clause
occurring after the marker is not found (the concrete conjunct: the input
`"Work note: rest for 10m"` fails even though it contains `for 10m`). -/
theorem note_split_before_duration_search :
    (∀ now s pre post, splitOnFirst noteMarker s.toList = some (pre, post) →
        parse_voice_or_text_input now s = parseFromBody now pre (pyStrip post)
          ∧ ∀ e, parse_voice_or_text_input now s = .ok e → e.note = String.mk (pyStrip post))
    ∧ (∀ now, parse_voice_or_text_input now "Work note: rest for 10m"
        = .error "Input must include duration with 'for <duration>'.") := by
  refine ⟨fun now s pre post h => ?_, fun now => rfl⟩
  have hfact : parse_voice_or_text_input now s = parseFromBody now pre (pyStrip post) := by
    unfold parse_voice_or_text_input noteSplit
    rw [h]
  exact ⟨hfact, fun e he => parseFromBody_note now pre (pyStrip post) e (hfact ▸ he)⟩

/-- C4 witness: concrete instance of the factoring through the `note:`
split. -/
theorem note_split_witness :
    splitOnFirst noteMarker "A for 5m note: x".toList
        = some ("A for 5m ".toList, " x".toList)
      ∧ parse_voice_or_text_input "T" "A for 5m note: x"
          = parseFromBody "T" "A for 5m ".toList (pyStrip " x".toList) :=
  ⟨rfl, (note_split_before_duration_search.1 "T" "A for 5m note: x"
      "A for 5m ".toList " x".toList rfl).1⟩

/-- C2 witness: the value formula at the concrete token `"2h30m"`. -/
theorem parse_duration_value_formula_witness :
    parse_duration "2h30m"
      = .ok (⌊hourQ (durNorm "2h30m") * 60⌋₊ + minVal (durNorm "2h30m")) :=
  (parse_duration_value_formula.1 "2h30m" rfl (Or.inl (by decide))).1

/-- One step of the dictionary accumulation
`totals[entry.activity] = totals.get(entry.activity, 0) + entry.duration_minutes`:
an existing key is updated in place, a new key is appended at the end
(Python dicts preserve insertion order, so the key order of the result is
the first-encountered order of the activities). -/
def bumpTotal : List (String × Int) → String → Int → List (String × Int)
  | [], a, d => [(a, d)]
  | p :: rest, a, d =>
    if p.1 = a then (p.1, p.2 + d) :: rest else p :: bumpTotal rest a d

/-- The accumulation loop of `summarize_entries`, before sorting: the
insertion-ordered dict `totals`. -/
def totalsList (entries : List TimeEntry) : List (String × Int) :=
  entries.foldl (fun acc e => bumpTotal acc e.activity e.duration_minutes) []

/-- Insert a pair into a list sorted by descending value, placing it BEFORE
the first element whose value is less than or equal to its own. -/
def insertDescVal (p : String × Int) : List (String × Int) → List (String × Int)
  | [] => [p]
  | q :: l => if q.2 ≤ p.2 then p :: q :: l else q :: insertDescVal p l

/-- Stable sort by descending value, modelling Python's
`sorted(items, key=lambda item: item[1], reverse=True)` (Timsort is stable,
and `reverse=True` keeps equal elements in their original order; insertion
sort that puts each element before the existing elements of
less-than-or-equal value realises exactly that order, as the sortedness,
permutation and stability theorems below establish). -/
def sortDescVal : List (String × Int) → List (String × Int)
  | [] => []
  | p :: l => insertDescVal p (sortDescVal l)

/-- Embedding of `summarize_entries` (src/time_manager/cli.py,
lines 113-117). -/
def summarize_entries (entries : List TimeEntry) : List (String × Int) :=
  sortDescVal (totalsList entries)

/-- Total of the values stored under key `a` (for a dict-like list with
distinct keys, the value under `a`, or `0` when absent). -/
def keyTotal (a : String) (l : List (String × Int)) : Int :=
  ((l.filter (fun p => p.1 == a)).map Prod.snd).sum

/-- Total duration of the entries whose activity label is `a`. -/
def entriesTotal (a : String) (es : List TimeEntry) : Int :=
  ((es.filter (fun e => e.activity == a)).map TimeEntry.duration_minutes).sum

theorem insertDescVal_perm (p : String × Int) (l : List (String × Int)) :
    List.Perm (insertDescVal p l) (p :: l) := by
  induction l with
  | nil => exact List.Perm.refl _
  | cons q l ih =>
    unfold insertDescVal
    split
    · exact List.Perm.refl _
    · exact List.Perm.trans (List.Perm.cons q ih) (List.Perm.swap p q l)

theorem sortDescVal_perm (l : List (String × Int)) :
    List.Perm (sortDescVal l) l := by
  induction l with
  | nil => exact List.Perm.refl _
  | cons p l ih =>
    exact List.Perm.trans (insertDescVal_perm p (sortDescVal l)) (List.Perm.cons p ih)

theorem sorted_insertDescVal (p : String × Int) (l : List (String × Int))
    (hl : List.Sorted (fun p q : String × Int => q.2 ≤ p.2) l) :
    List.Sorted (fun p q : String × Int => q.2 ≤ p.2) (insertDescVal p l) := by
  induction l with
  | nil => simp [insertDescVal]
  | cons q l ih =>
    rw [List.sorted_cons] at hl
    unfold insertDescVal
    split
    · next hq =>
      rw [List.sorted_cons]
      refine ⟨fun b hb => ?_, List.sorted_cons.mpr hl⟩
      rcases List.mem_cons.mp hb with rfl | hb
      · exact hq
      · exact le_trans (hl.1 b hb) hq
    · next hq =>
      rw [List.sorted_cons]
      refine ⟨fun b hb => ?_, ih hl.2⟩
      rcases List.mem_cons.mp ((insertDescVal_perm p l).mem_iff.mp hb) with rfl | h
      · exact le_of_lt (lt_of_not_le hq)
      · exact hl.1 b h


theorem filter_insertDescVal (v : Int) (p : String × Int) (l : List (String × Int)) :
    (insertDescVal p l).filter (fun q => q.2 == v)
      = if p.2 = v then p :: l.filter (fun q => q.2 == v)
        else l.filter (fun q => q.2 == v) := by
  induction l with
  | nil => by_cases hp : p.2 = v <;> simp [insertDescVal, List.filter_cons, hp]
  | cons q l ih =>
    unfold insertDescVal
    split
    · next hq =>
      by_cases hp : p.2 = v <;> simp [List.filter_cons, hp]
    · next hq =>
      by_cases hp : p.2 = v
      · have hqv : ¬ q.2 = v := by omega
        simp [List.filter_cons, hp, hqv, ih]
      · by_cases hqv : q.2 = v <;> simp [List.filter_cons, hp, hqv, ih]

theorem filter_sortDescVal (v : Int) (l : List (String × Int)) :
    (sortDescVal l).filter (fun q => q.2 == v) = l.filter (fun q => q.2 == v) := by
  induction l with
  | nil => rfl
  | cons p l ih =>
    rw [sortDescVal, filter_insertDescVal]
    by_cases hp : p.2 = v <;> simp [List.filter_cons, hp, ih]

theorem keyTotal_cons (a : String) (p : String × Int) (l : List (String × Int)) :
    keyTotal a (p :: l) = (if p.1 = a then p.2 else 0) + keyTotal a l := by
  by_cases h : p.1 = a <;> simp [keyTotal, List.filter_cons, h]

theorem keyTotal_bumpTotal (a b : String) (d : Int) (l : List (String × Int)) :
    keyTotal a (bumpTotal l b d) = keyTotal a l + (if b = a then d else 0) := by
  induction l with
  | nil => by_cases h : b = a <;> simp [bumpTotal, keyTotal, List.filter_cons, h]
  | cons p rest ih =>
    unfold bumpTotal
    split
    · next hpb =>
      subst hpb
      rw [keyTotal_cons, keyTotal_cons]
      by_cases ha : p.1 = a
      · rw [if_pos ha, if_pos ha, if_pos ha]; omega
      · rw [if_neg ha, if_neg ha, if_neg ha]; omega
    · next hpb =>
      rw [keyTotal_cons, keyTotal_cons, ih]
      omega

theorem keyTotal_foldl (a : String) (es : List TimeEntry) :
    ∀ acc, keyTotal a
        (es.foldl (fun acc e => bumpTotal acc e.activity e.duration_minutes) acc)
      = keyTotal a acc + entriesTotal a es := by
  induction es with
  | nil => intro acc; simp [entriesTotal]
  | cons e es ih =>
    intro acc
    rw [List.foldl_cons, ih, keyTotal_bumpTotal]
    unfold entriesTotal
    by_cases he : e.activity = a <;> · simp [List.filter_cons, he]; try omega

theorem keyTotal_totalsList (a : String) (es : List TimeEntry) :
    keyTotal a (totalsList es) = entriesTotal a es := by
  have := keyTotal_foldl a es []
  simpa [totalsList, keyTotal] using this

theorem keyTotal_perm (a : String) {l1 l2 : List (String × Int)}
    (h : List.Perm l1 l2) : keyTotal a l1 = keyTotal a l2 :=
  List.Perm.sum_eq (List.Perm.map _ (List.Perm.filter _ h))

theorem fst_bumpTotal (l : List (String × Int)) (a : String) (d : Int) :
    (bumpTotal l a d).map Prod.fst
      = if a ∈ l.map Prod.fst then l.map Prod.fst else l.map Prod.fst ++ [a] := by
  induction l with
  | nil => simp [bumpTotal]
  | cons p rest ih =>
    unfold bumpTotal
    split
    · next hpa => simp [hpa]
    · next hpa =>
      have hne : ¬ a = p.1 := fun h => hpa h.symm
      by_cases hm : a ∈ rest.map Prod.fst <;> simp [ih, hm, hne]

theorem nodup_fst_bumpTotal (l : List (String × Int)) (a : String) (d : Int)
    (h : (l.map Prod.fst).Nodup) : ((bumpTotal l a d).map Prod.fst).Nodup := by
  rw [fst_bumpTotal]
  split
  · exact h
  · next hm => simp [List.nodup_append, h, hm]

theorem nodup_fst_totalsList (es : List TimeEntry) :
    ((totalsList es).map Prod.fst).Nodup := by
  suffices h : ∀ acc : List (String × Int), (acc.map Prod.fst).Nodup →
      ((es.foldl (fun acc e => bumpTotal acc e.activity e.duration_minutes) acc).map
        Prod.fst).Nodup by
    exact h [] (by simp)
  induction es with
  | nil => intro acc hacc; simpa using hacc
  | cons e es ih =>
    intro acc hacc
    rw [List.foldl_cons]
    exact ih _ (nodup_fst_bumpTotal _ _ _ hacc)

theorem snd_sum_insertDescVal (p : String × Int) (l : List (String × Int)) :
    ((insertDescVal p l).map Prod.snd).sum = p.2 + (l.map Prod.snd).sum :=
  List.Perm.sum_eq (List.Perm.map _ (insertDescVal_perm p l))

theorem snd_sum_sortDescVal (l : List (String × Int)) :
    ((sortDescVal l).map Prod.snd).sum = (l.map Prod.snd).sum :=
  List.Perm.sum_eq (List.Perm.map _ (sortDescVal_perm l))

theorem snd_sum_bumpTotal (l : List (String × Int)) (a : String) (d : Int) :
    ((bumpTotal l a d).map Prod.snd).sum = (l.map Prod.snd).sum + d := by
  induction l with
  | nil => simp [bumpTotal]
  | cons p rest ih =>
    unfold bumpTotal
    split
    · simp
      omega
    · simp [ih]
      omega

theorem snd_sum_totalsList (es : List TimeEntry) :
    ((totalsList es).map Prod.snd).sum = (es.map TimeEntry.duration_minutes).sum := by
  suffices h : ∀ acc : List (String × Int),
      ((es.foldl (fun acc e => bumpTotal acc e.activity e.duration_minutes) acc).map
        Prod.snd).sum = (acc.map Prod.snd).sum + (es.map TimeEntry.duration_minutes).sum by
    simpa using h []
  induction es with
  | nil => intro acc; simp
  | cons e es ih =>
    intro acc
    rw [List.foldl_cons, ih, snd_sum_bumpTotal]
    simp
    omega

/-- C5: `summarize_entries` sums `duration_minutes` per distinct activity
label (the per-key totals of the result are the per-activity sums of the
input, and the keys of the result are distinct), and the result is ordered
by descending total with ties broken by the first-encountered order of the
activities — a stable sort on value, descending, formalised as: the result
is sorted by descending value, and for every value the pairs carrying it
appear in exactly their order in the insertion-ordered accumulator
`totalsList`, whose keys occur in first-encountered order (new keys are
appended at the end, `fst_bumpTotal`); in particular entries
[(A,30),(B,20),(A,10)] yield [(A,40),(B,20)] with A before B. -/
theorem summarize_entries_spec :
    (∀ es a, keyTotal a (summarize_entries es) = entriesTotal a es)
    ∧ (∀ es, ((summarize_entries es).map Prod.fst).Nodup)
    ∧ (∀ es, List.Sorted (fun p q : String × Int => q.2 ≤ p.2) (summarize_entries es))
    ∧ (∀ es v, (summarize_entries es).filter (fun q => q.2 == v)
        = (totalsList es).filter (fun q => q.2 == v))
    ∧ summarize_entries [⟨"", "A", 30, ""⟩, ⟨"", "B", 20, ""⟩, ⟨"", "A", 10, ""⟩]
        = [("A", 40), ("B", 20)] := by
  refine ⟨fun es a => ?_, fun es => ?_, fun es => ?_, fun es v => ?_, rfl⟩
  · unfold summarize_entries
    rw [keyTotal_perm a (sortDescVal_perm (totalsList es)), keyTotal_totalsList]
  · exact ((sortDescVal_perm (totalsList es)).map Prod.fst).nodup_iff.mpr
      (nodup_fst_totalsList es)
  · unfold summarize_entries
    generalize totalsList es = l
    induction l with
    | nil => simp [sortDescVal]
    | cons p l ih => exact sorted_insertDescVal p _ ih
  · exact filter_sortDescVal v (totalsList es)

/-- Decimal digit character for a value below ten (the digits Python's
`str(int)` emits). -/
def digitChar : Nat → Char
  | 0 => '0' | 1 => '1' | 2 => '2' | 3 => '3' | 4 => '4'
  | 5 => '5' | 6 => '6' | 7 => '7' | 8 => '8' | _ => '9'

/-- Decimal digits of `n`, most significant first, computed with explicit
fuel so that the definition is structurally recursive and evaluates in the
kernel; `natStr` below supplies enough fuel. -/
def natDigitsAux : Nat → Nat → List Char
  | 0, _ => []
  | fuel + 1, n =>
    if n < 10 then [digitChar n]
    else natDigitsAux fuel (n / 10) ++ [digitChar (n % 10)]

/-- Decimal representation of a natural number, as `str(n)` produces it. -/
def natStr (n : Nat) : List Char := natDigitsAux (n + 1) n

/-- Decimal representation of a Python `int`, as `str(n)` / `json.dumps`
produce it. -/
def intStr (n : Int) : String :=
  if n < 0 then String.mk ('-' :: natStr (-n).toNat) else String.mk (natStr n.toNat)

/-- The five literal suggestion strings of `analyze_totals`. -/
def noDataStr : String := "No data to analyze yet. Start logging your time for insights."

/-- Suggestion for a dominating activity (over 60% of the total). -/
def over60Str (a : String) : String :=
  "'" ++ a ++ "'占用了超过60%的时间，建议安排多样化任务或加入休息。"

/-- Suggestion when the grand total exceeds 600 minutes. -/
def over600Str : String := "今日累计时间超过10小时，注意休息与恢复。"

/-- Suggestion when there are at most two distinct activities. -/
def fewKindsStr : String := "活动类型较少，可以记录更多类别以便分析平衡性。"

/-- Suggestion when none of the other checks fired. -/
def balancedStr : String := "时间分配较为均衡，继续保持并关注重点项目进展。"

/-- Embedding of `analyze_totals` (src/time_manager/cli.py, lines 120-136).
`max(totals.items(), key=...)` returns the first maximal item, modelled by
the fold keeping the current best unless a strictly greater value appears;
it is only reached when the total is nonzero, hence on a nonempty list (the
`[]` arm is unreachable because an empty dict sums to 0).  The float
comparison `top[1] > total * 0.6` is modelled by the exact equivalent
integer inequality `6 * total < 10 * top[1]`. -/
def analyze_totals (totals : List (String × Int)) : List String :=
  let total := (totals.map Prod.snd).sum
  if total = 0 then [noDataStr]
  else
    match totals with
    | [] => [noDataStr]
    | t :: ts =>
      let top := ts.foldl (fun best q => if best.2 < q.2 then q else best) t
      let s1 := if 6 * total < 10 * top.2 then [over60Str top.1] else []
      let s2 := if 600 < total then [over600Str] else []
      let s3 := if totals.length ≤ 2 then [fewKindsStr] else []
      let sugs := s1 ++ s2 ++ s3
      if sugs.isEmpty then [balancedStr] else sugs

example : analyze_totals [] = [noDataStr] := rfl
example : analyze_totals [("A", 200), ("B", 180), ("C", 150)] = [balancedStr] := rfl
example : analyze_totals [("A", 700)] = [over60Str "A", over600Str, fewKindsStr] := rfl
example : analyze_totals [("A", 100), ("B", 100)] = [fewKindsStr] := rfl

/-- Rendering of the report text from a title, the grand total and the
summarised totals: title line, grand-total line, one line per activity in
the summarised order, then the suggestions of `analyze_totals`, joined by
newlines (src/time_manager/cli.py, lines 139-147). -/
def renderReport (title : String) (total : Int) (totals : List (String × Int)) : String :=
  String.intercalate "\n"
    (["# " ++ title, "", "总时长：" ++ intStr total ++ " 分钟", "", "## 分类统计"]
      ++ totals.map (fun p => "- " ++ p.1 ++ ": " ++ intStr p.2 ++ " 分钟")
      ++ ["\n## 分析与建议"]
      ++ (analyze_totals totals).map (fun tip => "- " ++ tip))

/-- Embedding of `build_report` (src/time_manager/cli.py, lines 139-147):
it summarises the entries, takes the grand total as the sum of the
summarised values, and renders the text. -/
def build_report (title : String) (entries : List TimeEntry) : String :=
  renderReport title (((summarize_entries entries).map Prod.snd).sum)
    (summarize_entries entries)

/-- C6: `analyze_totals` short-circuits on an all-zero total — it returns
exactly the single "no data" suggestion and skips every other check — and
on a single activity of 700 minutes the returned list contains both the
"over 60%" suggestion and the "over 10 hours" suggestion (the checks are
evaluated in order and all applicable suggestions are included). -/
theorem analyze_totals_spec :
    (∀ totals : List (String × Int),
        (totals.map Prod.snd).sum = 0 → analyze_totals totals = [noDataStr])
    ∧ (∀ a : String,
        analyze_totals [(a, 700)] = [over60Str a, over600Str, fewKindsStr]
          ∧ over60Str a ∈ analyze_totals [(a, 700)]
          ∧ over600Str ∈ analyze_totals [(a, 700)]) := by
  constructor
  · intro totals h
    unfold analyze_totals
    rw [if_pos h]
  · intro a
    have he : analyze_totals [(a, 700)] = [over60Str a, over600Str, fewKindsStr] := by
      unfold analyze_totals
      norm_num
    exact ⟨he, by rw [he]; simp, by rw [he]; simp⟩

/-- C6 witness: the all-zero short-circuit at a concrete totals mapping, and
the concrete 700-minute single activity. -/
theorem analyze_totals_witness :
    analyze_totals [("A", 0)] = [noDataStr]
      ∧ over60Str "A" ∈ analyze_totals [("A", 700)] :=
  ⟨analyze_totals_spec.1 [("A", 0)] rfl, (analyze_totals_spec.2 "A").2.1⟩

/-- C10: aggregation neither loses nor invents minutes — the sum of the
per-activity totals returned by `summarize_entries` equals the sum of the
`duration_minutes` of the input entries — and consequently the grand total
printed by `build_report` is the total duration of its input entries. -/
theorem aggregation_preserves_total :
    (∀ es, ((summarize_entries es).map Prod.snd).sum
        = (es.map TimeEntry.duration_minutes).sum)
    ∧ (∀ title es, build_report title es
        = renderReport title ((es.map TimeEntry.duration_minutes).sum)
            (summarize_entries es)) := by
  have hsum : ∀ es : List TimeEntry, ((summarize_entries es).map Prod.snd).sum
      = (es.map TimeEntry.duration_minutes).sum := fun es => by
    unfold summarize_entries
    rw [snd_sum_sortDescVal, snd_sum_totalsList]
  exact ⟨hsum, fun title es => by unfold build_report; rw [hsum es]⟩

/-- Gregorian leap-year rule, as `datetime.date` uses. -/
def isLeap (y : Nat) : Bool :=
  y % 4 = 0 && (y % 100 ≠ 0 || y % 400 = 0)

/-- Length of month `m` of year `y` in the proleptic Gregorian calendar. -/
def daysInMonth (y m : Nat) : Nat :=
  if m = 2 then (if isLeap y then 29 else 28)
  else if m = 4 ∨ m = 6 ∨ m = 9 ∨ m = 11 then 30 else 31

/-- A calendar date, as Python's `datetime.date`. -/
structure Date where
  year : Nat
  month : Nat
  day : Nat
deriving DecidableEq

/-- The dates `datetime.date` can represent: years 1 to 9999 (`MINYEAR` to
`MAXYEAR`), valid month and day. -/
def validDate (x : Date) : Prop :=
  1 ≤ x.year ∧ x.year ≤ 9999 ∧ 1 ≤ x.month ∧ x.month ≤ 12
    ∧ 1 ≤ x.day ∧ x.day ≤ daysInMonth x.year x.month

instance (x : Date) : Decidable (validDate x) := by
  unfold validDate
  infer_instance

/-- Successor day; `none` models the `OverflowError` Python raises past
`date.max = 9999-12-31`. -/
def nextDayO (x : Date) : Option Date :=
  if x.day < daysInMonth x.year x.month then some ⟨x.year, x.month, x.day + 1⟩
  else if x.month < 12 then some ⟨x.year, x.month + 1, 1⟩
  else if x.year < 9999 then some ⟨x.year + 1, 1, 1⟩
  else none

/-- `date + timedelta(days=n)`, day by day. -/
def addDaysO (x : Date) : Nat → Option Date
  | 0 => some x
  | n + 1 =>
    match nextDayO x with
    | some x2 => addDaysO x2 n
    | none => none

/-- Predecessor day; `none` models the `OverflowError` below
`date.min = 0001-01-01`. -/
def prevDayO (x : Date) : Option Date :=
  if 1 < x.day then some ⟨x.year, x.month, x.day - 1⟩
  else if 1 < x.month then some ⟨x.year, x.month - 1, daysInMonth x.year (x.month - 1)⟩
  else if 1 < x.year then some ⟨x.year - 1, 12, 31⟩
  else none

/-- `date - timedelta(days=n)`, day by day. -/
def subDaysO (x : Date) : Nat → Option Date
  | 0 => some x
  | n + 1 =>
    match prevDayO x with
    | some x2 => subDaysO x2 n
    | none => none

/-- Days in the months of year `y` strictly before month `m`. -/
def daysBeforeMonth (y m : Nat) : Nat :=
  (List.range (m - 1)).foldl (fun acc i => acc + daysInMonth y (i + 1)) 0

/-- Days in the years strictly before year `y`. -/
def daysBeforeYear (y : Nat) : Nat :=
  365 * (y - 1) + (y - 1) / 4 - (y - 1) / 100 + (y - 1) / 400

/-- Proleptic Gregorian ordinal, with 0001-01-01 as day 1
(`date.toordinal`). -/
def toOrdinal (x : Date) : Nat :=
  daysBeforeYear x.year + daysBeforeMonth x.year x.month + x.day

/-- `date.weekday()`: Monday is 0; 0001-01-01 (ordinal 1) was a Monday. -/
def pyWeekday (x : Date) : Nat := (toOrdinal x + 6) % 7

/-- Decimal string of a natural number. -/
def natS (n : Nat) : String := String.mk (natStr n)

/-- Zero-padded decimal string of width `w` (the `%04d`/`%02d` fields of
`date.isoformat` and `strftime`). -/
def padNatStr (w n : Nat) : String :=
  String.mk (List.replicate (w - (natStr n).length) '0' ++ natStr n)

/-- `date.isoformat()`. -/
def isoDate (x : Date) : String :=
  padNatStr 4 x.year ++ "-" ++ padNatStr 2 x.month ++ "-" ++ padNatStr 2 x.day

/-- Embedding of `parse_period` (src/time_manager/cli.py, lines 177-200):
resolves a period keyword and a reference date to an inclusive date range
and a title.  The `OverflowError` Python raises when the day arithmetic
leaves the representable range surfaces as an error value.  (Title strings
follow `isoformat`-style zero padding; `strftime("%Y")` padding below year
1000 is platform-dependent and not load-bearing.) -/
def parse_period (period : String) (reference : Date) :
    Except String (Date × Date × String) :=
  if period = "daily" then
    .ok (reference, reference, isoDate reference ++ " 日报")
  else if period = "weekly" then
    match subDaysO reference (pyWeekday reference) with
    | none => .error "OverflowError: date value out of range"
    | some start =>
      match addDaysO start 6 with
      | none => .error "OverflowError: date value out of range"
      | some e => .ok (start, e, isoDate start ++ " 至 " ++ isoDate e ++ " 周报")
  else if period = "monthly" then
    let start : Date := ⟨reference.year, reference.month, 1⟩
    match addDaysO start 32 with
    | none => .error "OverflowError: date value out of range"
    | some t =>
      match prevDayO ⟨t.year, t.month, 1⟩ with
      | none => .error "OverflowError: date value out of range"
      | some e =>
        .ok (start, e, padNatStr 4 start.year ++ "-" ++ padNatStr 2 start.month ++ " 月报")
  else if period = "yearly" then
    .ok (⟨reference.year, 1, 1⟩, ⟨reference.year, 12, 31⟩, natS reference.year ++ " 年报")
  else
    .error "Period must be daily, weekly, monthly, or yearly"

example : parse_period "daily" ⟨2024, 3, 15⟩
    = .ok (⟨2024, 3, 15⟩, ⟨2024, 3, 15⟩, "2024-03-15 日报") := rfl
example : parse_period "weekly" ⟨2024, 3, 15⟩
    = .ok (⟨2024, 3, 11⟩, ⟨2024, 3, 17⟩, "2024-03-11 至 2024-03-17 周报") := rfl
example : parse_period "yearly" ⟨2024, 3, 15⟩
    = .ok (⟨2024, 1, 1⟩, ⟨2024, 12, 31⟩, "2024 年报") := rfl
example : parse_period "hourly" ⟨2024, 3, 15⟩
    = .error "Period must be daily, weekly, monthly, or yearly" := rfl
example : parse_period "monthly" ⟨2024, 2, 29⟩
    = .ok (⟨2024, 2, 1⟩, ⟨2024, 2, 29⟩, "2024-02 月报") := rfl
example : parse_period "monthly" ⟨2023, 12, 5⟩
    = .ok (⟨2023, 12, 1⟩, ⟨2023, 12, 31⟩, "2023-12 月报") := rfl

theorem daysInMonth_bounds (y m : Nat) :
    28 ≤ daysInMonth y m ∧ daysInMonth y m ≤ 31 := by
  unfold daysInMonth
  split
  · split <;> omega
  · split <;> omega

theorem addDaysO_within (n : Nat) :
    ∀ y m d : Nat, 0 < d → d + n ≤ daysInMonth y m →
      addDaysO ⟨y, m, d⟩ n = some ⟨y, m, d + n⟩ := by
  induction n with
  | zero => intro y m d _ _; rfl
  | succ n ih =>
    intro y m d hd hle
    have h1 : nextDayO ⟨y, m, d⟩ = some ⟨y, m, d + 1⟩ := by
      unfold nextDayO
      rw [if_pos (show d < daysInMonth y m by omega)]
    simp only [addDaysO, h1]
    rw [ih y m (d + 1) (by omega) (by omega)]
    have : d + 1 + n = d + (n + 1) := by omega
    rw [this]

theorem addDaysO_split (a b : Nat) :
    ∀ x : Date, addDaysO x (a + b)
      = (addDaysO x a).bind (fun x2 => addDaysO x2 b) := by
  induction a with
  | zero => intro x; simp [addDaysO]
  | succ a ih =>
    intro x
    have : a + 1 + b = (a + b) + 1 := by omega
    rw [this]
    simp only [addDaysO]
    cases nextDayO x with
    | none => rfl
    | some x2 => exact ih x2

/-- C7 counterexample: 9999-12-15 is a valid reference date, but the
monthly resolution computes `date(9999, 12, 1) + timedelta(days=32)`, which
overflows `date.max`, so `parse_period` raises `OverflowError` instead of
resolving to 9999-12-01 .. 9999-12-31. -/
theorem monthly_overflow_refutes :
    validDate ⟨9999, 12, 15⟩
      ∧ parse_period "monthly" ⟨9999, 12, 15⟩
          = .error "OverflowError: date value out of range" :=
  ⟨by decide, rfl⟩

/-- C7 (amended): for every valid reference date outside December 9999, the
monthly period resolves to start = the first day of the reference month and
end = its last day, the latter computed as (start + 32 days) truncated to
day 1 of the following month, minus 1 day; in particular reference
2024-03-15 gives 2024-03-01 .. 2024-03-31.  (For references in December
9999 the `start + 32 days` step overflows Python's date range and the code
raises `OverflowError` instead.) -/
theorem monthly_period_resolution :
    (∀ y m d : Nat, validDate ⟨y, m, d⟩ → ¬(y = 9999 ∧ m = 12) →
        ∃ title, parse_period "monthly" ⟨y, m, d⟩
          = .ok (⟨y, m, 1⟩, ⟨y, m, daysInMonth y m⟩, title))
    ∧ parse_period "monthly" ⟨2024, 3, 15⟩
        = .ok (⟨2024, 3, 1⟩, ⟨2024, 3, 31⟩, "2024-03 月报") := by
  refine ⟨fun y m d hv hnot => ?_, rfl⟩
  have hv2 : 1 ≤ y ∧ y ≤ 9999 ∧ 1 ≤ m ∧ m ≤ 12 ∧ 1 ≤ d ∧ d ≤ daysInMonth y m := hv
  obtain ⟨hy1, hy2, hm1, hm2, hd1, hd2⟩ := hv2
  have hD := daysInMonth_bounds y m
  by_cases hm : m < 12
  · set D := daysInMonth y m with hDdefEq
    have h32 : (32 : Nat) = (D - 1) + (33 - D) := by omega
    have hstep1 : addDaysO ⟨y, m, 1⟩ (D - 1) = some ⟨y, m, D⟩ := by
      rw [addDaysO_within (D - 1) y m 1 (by omega) (by omega)]
      rw [show 1 + (D - 1) = D by omega]
    have hroll : nextDayO ⟨y, m, D⟩ = some ⟨y, m + 1, 1⟩ := by
      unfold nextDayO
      rw [if_neg (show ¬ (⟨y, m, D⟩ : Date).day < daysInMonth y m by
            simp only; omega),
        if_pos (show (⟨y, m, D⟩ : Date).month < 12 from hm)]
    have hnext : addDaysO ⟨y, m, D⟩ (33 - D) = some ⟨y, m + 1, 1 + (32 - D)⟩ := by
      rw [show (33 - D : Nat) = (32 - D) + 1 by omega]
      simp only [addDaysO, hroll]
      exact addDaysO_within (32 - D) y (m + 1) 1 (by omega)
        (by have := daysInMonth_bounds y (m + 1); omega)
    have hadd : addDaysO ⟨y, m, 1⟩ 32 = some ⟨y, m + 1, 1 + (32 - D)⟩ := by
      conv_lhs => rw [h32]
      rw [addDaysO_split, hstep1]
      simpa using hnext
    have hprev : prevDayO ⟨y, m + 1, 1⟩ = some ⟨y, m, D⟩ := by
      unfold prevDayO
      rw [if_neg (show ¬ (1 : Nat) < 1 by omega),
        if_pos (show (1 : Nat) < m + 1 by omega)]
      simp
    refine ⟨padNatStr 4 y ++ "-" ++ padNatStr 2 m ++ " 月报", ?_⟩
    unfold parse_period
    rw [if_neg (by decide), if_neg (by decide), if_pos rfl]
    simp only [hadd, hprev]
  · have hm12 : m = 12 := by omega
    subst hm12
    have hy9999 : y < 9999 := by
      rcases Nat.lt_or_ge y 9999 with h | h
      · exact h
      · exact absurd ⟨by omega, rfl⟩ hnot
    have hD31 : daysInMonth y 12 = 31 := by norm_num [daysInMonth]
    have hstep1 : addDaysO ⟨y, 12, 1⟩ 30 = some ⟨y, 12, 31⟩ := by
      rw [addDaysO_within 30 y 12 1 (by omega) (by omega)]
    have hroll : nextDayO ⟨y, 12, 31⟩ = some ⟨y + 1, 1, 1⟩ := by
      unfold nextDayO
      rw [if_neg (show ¬ (⟨y, 12, 31⟩ : Date).day < daysInMonth y 12 by
            simp only; omega),
        if_neg (show ¬ (⟨y, 12, 31⟩ : Date).month < 12 by simp),
        if_pos (show (⟨y, 12, 31⟩ : Date).year < 9999 from hy9999)]
    have hnext : addDaysO ⟨y, 12, 31⟩ 2 = some ⟨y + 1, 1, 2⟩ := by
      show addDaysO ⟨y, 12, 31⟩ (1 + 1) = some ⟨y + 1, 1, 2⟩
      simp only [addDaysO, hroll]
      exact addDaysO_within 1 (y + 1) 1 1 (by omega)
        (by have := daysInMonth_bounds (y + 1) 1; omega)
    have hadd : addDaysO ⟨y, 12, 1⟩ 32 = some ⟨y + 1, 1, 2⟩ := by
      conv_lhs => rw [show (32 : Nat) = 30 + 2 by omega]
      rw [addDaysO_split, hstep1]
      simpa using hnext
    have hprev : prevDayO ⟨y + 1, 1, 1⟩ = some ⟨y, 12, 31⟩ := by
      unfold prevDayO
      rw [if_neg (show ¬ (1 : Nat) < 1 by omega),
        if_neg (show ¬ (1 : Nat) < 1 by omega),
        if_pos (show (1 : Nat) < y + 1 by omega)]
      simp
    refine ⟨padNatStr 4 y ++ "-" ++ padNatStr 2 12 ++ " 月报", ?_⟩
    unfold parse_period
    rw [if_neg (by decide), if_neg (by decide), if_pos rfl]
    simp only [hadd, hprev, hD31]

/-- C7 witness: the amended monthly resolution at the concrete reference
2024-03-15. -/
theorem monthly_period_resolution_witness :
    validDate ⟨2024, 3, 15⟩ ∧ ¬((2024 : Nat) = 9999 ∧ (3 : Nat) = 12)
      ∧ ∃ title, parse_period "monthly" ⟨2024, 3, 15⟩
          = .ok (⟨2024, 3, 1⟩, ⟨2024, 3, 31⟩, title) :=
  ⟨by decide, by decide,
    monthly_period_resolution.1 2024 3 15 (by decide) (by decide)⟩

/-- The persisted document: the JSON object with `entries` and `brainstorms`
(the unit of persistence of the Storage Adapter). -/
structure Document where
  entries : List TimeEntry
  brainstorms : List BrainstormPrompt
deriving DecidableEq

/-- JSON whitespace (the characters `json.loads` skips between tokens). -/
def isJsonWs (c : Char) : Bool :=
  c = ' ' || c = '\t' || c = '\n' || c = '\r'

/-- A run of `n` spaces (the indentation of `json.dumps(..., indent=2)`). -/
def sp (n : Nat) : List Char := List.replicate n ' '

/-- Lower-case hexadecimal digit, as Python's `\uXXXX` escapes use. -/
def hexDigitChar : Nat → Char
  | 0 => '0' | 1 => '1' | 2 => '2' | 3 => '3' | 4 => '4' | 5 => '5' | 6 => '6'
  | 7 => '7' | 8 => '8' | 9 => '9' | 10 => 'a' | 11 => 'b' | 12 => 'c'
  | 13 => 'd' | 14 => 'e' | _ => 'f'

/-- JSON string escaping as `json.dumps(..., ensure_ascii=False)` performs
it: `"` and `\\` are escaped, the control characters with short escapes use
them, all other control characters (code < 0x20) become `\u00XX`, and every
other character is emitted verbatim. -/
def escapeChar (c : Char) : List Char :=
  if c = '"' then ['\\', '"']
  else if c = '\\' then ['\\', '\\']
  else if c = '\n' then ['\\', 'n']
  else if c = '\r' then ['\\', 'r']
  else if c = '\t' then ['\\', 't']
  else if c = '\x08' then ['\\', 'b']
  else if c = '\x0c' then ['\\', 'f']
  else if c.toNat < 32 then
    ['\\', 'u', '0', '0', hexDigitChar (c.toNat / 16), hexDigitChar (c.toNat % 16)]
  else [c]

/-- Escape every character of a string body. -/
def escapeList : List Char → List Char
  | [] => []
  | c :: cs => escapeChar c ++ escapeList cs

/-- A rendered JSON string literal. -/
def renderStr (s : String) : List Char :=
  '"' :: (escapeList s.toList ++ ['"'])

/-- A rendered JSON integer, as `json.dumps` prints Python ints. -/
def renderInt (n : Int) : List Char :=
  if n < 0 then '-' :: natStr (-n).toNat else natStr n.toNat

/-- The `\n`, indentation and `"key": ` sequence `json.dumps(..., indent=2)`
puts before each member of an object. -/
def fieldSeg (ind : Nat) (k : String) : List Char :=
  '\n' :: (sp ind ++ ('"' :: (k.toList ++ ('"' :: ':' :: ' ' :: []))))

/-- A rendered entry object, exactly as `json.dumps(asdict(entry), indent=2)`
lays it out at depth 2 of the document (fields indented by 6, closing brace
by 4); `asdict` preserves the dataclass field order. -/
def renderEntry (e : TimeEntry) : List Char :=
  '{' :: (fieldSeg 6 "timestamp" ++ (renderStr e.timestamp
    ++ (',' :: (fieldSeg 6 "activity" ++ (renderStr e.activity
    ++ (',' :: (fieldSeg 6 "duration_minutes" ++ (renderInt e.duration_minutes
    ++ (',' :: (fieldSeg 6 "note" ++ (renderStr e.note
    ++ ('\n' :: (sp 4 ++ ['}'])))))))))))))

/-- A rendered brainstorm object, fields in dataclass order. -/
def renderBrain (b : BrainstormPrompt) : List Char :=
  '{' :: (fieldSeg 6 "timestamp" ++ (renderStr b.timestamp
    ++ (',' :: (fieldSeg 6 "topic" ++ (renderStr b.topic
    ++ (',' :: (fieldSeg 6 "thoughts" ++ (renderStr b.thoughts
    ++ ('\n' :: (sp 4 ++ ['}']))))))))))

/-- The continuation of a rendered JSON array after its first element:
either the closing bracket or a comma and the next element. -/
def renderEntryTail : List TimeEntry → List Char
  | [] => '\n' :: (sp 2 ++ [']'])
  | e :: es => ',' :: '\n' :: (sp 4 ++ (renderEntry e ++ renderEntryTail es))

/-- A rendered array of entries: `[]` when empty, otherwise one element per
line indented by 4. -/
def renderEntryList : List TimeEntry → List Char
  | [] => ['[', ']']
  | e :: es => '[' :: '\n' :: (sp 4 ++ (renderEntry e ++ renderEntryTail es))

/-- The continuation of a rendered brainstorm array after its first
element. -/
def renderBrainTail : List BrainstormPrompt → List Char
  | [] => '\n' :: (sp 2 ++ [']'])
  | b :: bs => ',' :: '\n' :: (sp 4 ++ (renderBrain b ++ renderBrainTail bs))

/-- A rendered array of brainstorms. -/
def renderBrainList : List BrainstormPrompt → List Char
  | [] => ['[', ']']
  | b :: bs => '[' :: '\n' :: (sp 4 ++ (renderBrain b ++ renderBrainTail bs))

/-- The full rendered document, as
`json.dumps(payload, ensure_ascii=False, indent=2)` lays it out. -/
def renderDoc (d : Document) : List Char :=
  '{' :: (fieldSeg 2 "entries" ++ (renderEntryList d.entries
    ++ (',' :: (fieldSeg 2 "brainstorms" ++ (renderBrainList d.brainstorms
    ++ ('\n' :: ['}']))))))

/-- Embedding of `save_storage` (src/time_manager/cli.py, lines 44-45): the
text written to the data file.  The file system is modelled as the stored
text itself (`Path.write_text` then `Path.read_text` returns the written
text). -/
def save_storage (d : Document) : String := String.mk (renderDoc d)

/-- Drop leading JSON whitespace. -/
def pWs (cs : List Char) : List Char := cs.dropWhile isJsonWs

/-- Consume exactly the character `c`. -/
def pExact (c : Char) : List Char → Option (List Char)
  | x :: rest => if x = c then some rest else none
  | [] => none

/-- Consume the token `c` after optional whitespace. -/
def pTok (c : Char) (cs : List Char) : Option (List Char) := pExact c (pWs cs)

/-- Consume a literal character sequence. -/
def pLit : List Char → List Char → Option (List Char)
  | [], cs => some cs
  | l :: ls, c :: cs => if c = l then pLit ls cs else none
  | _ :: _, [] => none

/-- Value of a hexadecimal digit character (0 for non-hex characters; only
reached on hex digits when parsing well-formed input). -/
def hexVal (c : Char) : Nat :=
  if '0' ≤ c ∧ c ≤ '9' then c.toNat - 48
  else if 'a' ≤ c ∧ c ≤ 'f' then c.toNat - 87
  else if 'A' ≤ c ∧ c ≤ 'F' then c.toNat - 55
  else 0

/-- Decode a single-character JSON escape. -/
def decodeEsc (e : Char) : Option Char :=
  if e = '"' then some '"'
  else if e = '\\' then some '\\'
  else if e = '/' then some '/'
  else if e = 'n' then some '\n'
  else if e = 'r' then some '\r'
  else if e = 't' then some '\t'
  else if e = 'b' then some '\x08'
  else if e = 'f' then some '\x0c'
  else none

/-- Parse a JSON string body up to the closing quote, decoding escapes (the
`\uXXXX` decoding covers the code points this system's serializer emits).
The fuel bounds the number of parsed characters; callers pass the length of
the remaining input, which is always sufficient since every step consumes at
least one character. -/
def pStrBody : Nat → List Char → Option (List Char × List Char)
  | 0, _ => none
  | fuel + 1, cs =>
    match cs with
    | [] => none
    | c :: rest =>
      if c = '"' then some ([], rest)
      else if c = '\\' then
        match rest with
        | 'u' :: h1 :: h2 :: h3 :: h4 :: rest3 =>
          (pStrBody fuel rest3).map fun pr =>
            (Char.ofNat (((hexVal h1 * 16 + hexVal h2) * 16 + hexVal h3) * 16 + hexVal h4)
              :: pr.1, pr.2)
        | e :: rest2 =>
          match decodeEsc e with
          | some c2 => (pStrBody fuel rest2).map fun pr => (c2 :: pr.1, pr.2)
          | none => none
        | [] => none
      else (pStrBody fuel rest).map fun pr => (c :: pr.1, pr.2)

/-- Parse a JSON string literal after optional whitespace. -/
def pStr (cs : List Char) : Option (String × List Char) :=
  match pTok '"' cs with
  | none => none
  | some rest => (pStrBody rest.length rest).map fun pr => (String.mk pr.1, pr.2)

/-- Parse a JSON integer after optional whitespace. -/
def pInt (cs : List Char) : Option (Int × List Char) :=
  match pWs cs with
  | [] => none
  | c :: rest =>
    if c = '-' then
      let ds := rest.takeWhile Char.isDigit
      if ds.isEmpty then none
      else some (-(digitsVal ds : Int), rest.drop ds.length)
    else
      let ds := (c :: rest).takeWhile Char.isDigit
      if ds.isEmpty then none
      else some ((digitsVal ds : Int), (c :: rest).drop ds.length)

/-- Parse the member key `"k":` after optional whitespace (the keys of this
schema contain no escapes). -/
def pKey (k : String) (cs : List Char) : Option (List Char) :=
  match pTok '"' cs with
  | none => none
  | some rest =>
    match pLit k.toList rest with
    | none => none
    | some rest2 =>
      match pExact '"' rest2 with
      | none => none
      | some rest3 => pTok ':' rest3

/-- Parse one entry object of the document schema (member order as this
system writes it). -/
def pEntry (cs : List Char) : Option (TimeEntry × List Char) := do
  let cs1 ← pTok '{' cs
  let cs2 ← pKey "timestamp" cs1
  let (ts, cs3) ← pStr cs2
  let cs4 ← pTok ',' cs3
  let cs5 ← pKey "activity" cs4
  let (act, cs6) ← pStr cs5
  let cs7 ← pTok ',' cs6
  let cs8 ← pKey "duration_minutes" cs7
  let (dur, cs9) ← pInt cs8
  let cs10 ← pTok ',' cs9
  let cs11 ← pKey "note" cs10
  let (note, cs12) ← pStr cs11
  let cs13 ← pTok '}' cs12
  some (⟨ts, act, dur, note⟩, cs13)

/-- Parse one brainstorm object of the document schema. -/
def pBrain (cs : List Char) : Option (BrainstormPrompt × List Char) := do
  let cs1 ← pTok '{' cs
  let cs2 ← pKey "timestamp" cs1
  let (ts, cs3) ← pStr cs2
  let cs4 ← pTok ',' cs3
  let cs5 ← pKey "topic" cs4
  let (top, cs6) ← pStr cs5
  let cs7 ← pTok ',' cs6
  let cs8 ← pKey "thoughts" cs7
  let (th, cs9) ← pStr cs8
  let cs10 ← pTok '}' cs9
  some (⟨ts, top, th⟩, cs10)

/-- Parse the continuation of an entry array after one element: a closing
bracket, or a comma and a further element.  The fuel bounds the number of
elements; `load_storage` passes the text length, which the length lemmas
below show is always sufficient. -/
def pEntriesTail : Nat → List Char → Option (List TimeEntry × List Char)
  | 0, _ => none
  | fuel + 1, cs =>
    match pTok ']' cs with
    | some rest => some ([], rest)
    | none => do
      let cs1 ← pTok ',' cs
      let (e, cs2) ← pEntry cs1
      let (es, cs3) ← pEntriesTail fuel cs2
      some (e :: es, cs3)

/-- Parse an entry array. -/
def pEntries (fuel : Nat) (cs : List Char) : Option (List TimeEntry × List Char) := do
  let cs1 ← pTok '[' cs
  match pTok ']' cs1 with
  | some rest => some ([], rest)
  | none => do
    let (e, cs2) ← pEntry cs1
    let (es, cs3) ← pEntriesTail fuel cs2
    some (e :: es, cs3)

/-- Parse the continuation of a brainstorm array after one element. -/
def pBrainsTail : Nat → List Char → Option (List BrainstormPrompt × List Char)
  | 0, _ => none
  | fuel + 1, cs =>
    match pTok ']' cs with
    | some rest => some ([], rest)
    | none => do
      let cs1 ← pTok ',' cs
      let (b, cs2) ← pBrain cs1
      let (bs, cs3) ← pBrainsTail fuel cs2
      some (b :: bs, cs3)

/-- Parse a brainstorm array. -/
def pBrains (fuel : Nat) (cs : List Char) : Option (List BrainstormPrompt × List Char) := do
  let cs1 ← pTok '[' cs
  match pTok ']' cs1 with
  | some rest => some ([], rest)
  | none => do
    let (b, cs2) ← pBrain cs1
    let (bs, cs3) ← pBrainsTail fuel cs2
    some (b :: bs, cs3)

/-- Parse a whole document object. -/
def pDoc (fuel : Nat) (cs : List Char) : Option (Document × List Char) := do
  let cs1 ← pTok '{' cs
  let cs2 ← pKey "entries" cs1
  let (es, cs3) ← pEntries fuel cs2
  let cs4 ← pTok ',' cs3
  let cs5 ← pKey "brainstorms" cs4
  let (bs, cs6) ← pBrains fuel cs5
  let cs7 ← pTok '}' cs6
  some (⟨es, bs⟩, cs7)

/-- Embedding of `load_storage` (src/time_manager/cli.py, lines 39-41),
modelled from the spec for the external `json.loads` collaborator: parse the
stored text as a document of the schema of spec section 6 (UTF-8 JSON with
the two top-level keys in the order this system writes them), failing with a
`StorageError` on text that does not parse; trailing whitespace after the
document is accepted, trailing content is not, as in `json.loads`. -/
def load_storage (text : String) : Except String Document :=
  match pDoc text.length text.toList with
  | some (d, rest) =>
    if (pWs rest).isEmpty then .ok d else .error "StorageError: invalid JSON document"
  | none => .error "StorageError: invalid JSON document"

example : save_storage ⟨[], []⟩
    = "\x7b\n  \"entries\": [],\n  \"brainstorms\": []\n\x7d" := rfl

example : load_storage "\x7b\n  \"entries\": [],\n  \"brainstorms\": []\n\x7d"
    = .ok ⟨[], []⟩ := rfl

example :
    save_storage ⟨[⟨"2024-03-15T10:00:00", "Writing report", 45, "status update"⟩], []⟩
      = String.mk ('{' :: (fieldSeg 2 "entries"
          ++ (renderEntryList [⟨"2024-03-15T10:00:00", "Writing report", 45, "status update"⟩]
          ++ (',' :: (fieldSeg 2 "brainstorms" ++ (['[', ']'] ++ ('\n' :: ['}']))))))) := rfl

set_option maxRecDepth 4000 in
example : load_storage (save_storage
    ⟨[⟨"2024-03-15T10:00:00", "Writing report", 45, "status update"⟩],
      [⟨"2024-03-15T11:00:00", "topic", "some thoughts"⟩]⟩)
    = .ok ⟨[⟨"2024-03-15T10:00:00", "Writing report", 45, "status update"⟩],
        [⟨"2024-03-15T11:00:00", "topic", "some thoughts"⟩]⟩ := rfl

set_option maxRecDepth 4000 in
example : load_storage (save_storage ⟨[⟨"t", "a \"quoted\" \\ line\n\x01", 0, ""⟩], []⟩)
    = .ok ⟨[⟨"t", "a \"quoted\" \\ line\n\x01", 0, ""⟩], []⟩ := rfl

theorem pWs_cons_ws (c : Char) (b : List Char) (h : isJsonWs c = true) :
    pWs (c :: b) = pWs b := by
  simp [pWs, List.dropWhile_cons, h]

theorem pWs_cons_not (c : Char) (b : List Char) (h : isJsonWs c = false) :
    pWs (c :: b) = c :: b := by
  simp [pWs, List.dropWhile_cons, h]

theorem pWs_sp (k : Nat) (b : List Char) : pWs (sp k ++ b) = pWs b := by
  induction k with
  | zero => rfl
  | succ k ih =>
    rw [sp, List.replicate_succ, List.cons_append, pWs_cons_ws _ _ (by decide)]
    exact ih

theorem pLit_self (l cs : List Char) : pLit l (l ++ cs) = some cs := by
  induction l with
  | nil => rfl
  | cons c l ih => simp [pLit, ih]

theorem hexVal_hexDigitChar : ∀ k, k < 16 → hexVal (hexDigitChar k) = k := by decide

theorem digitChar_isDigit (k : Nat) : (digitChar k).isDigit = true := by
  unfold digitChar
  split <;> decide

theorem digitChar_not_ws (k : Nat) : isJsonWs (digitChar k) = false := by
  unfold digitChar
  split <;> decide

theorem digitChar_ne_minus (k : Nat) : digitChar k ≠ '-' := by
  unfold digitChar
  split <;> decide

theorem digitChar_val : ∀ k, k < 10 → (digitChar k).toNat - 48 = k := by decide

theorem natDigitsAux_extra (n : Nat) :
    ∀ f1 f2, n < f1 → n < f2 → natDigitsAux f1 n = natDigitsAux f2 n := by
  induction n using Nat.strongRecOn with
  | _ n ih =>
    intro f1 f2 h1 h2
    match f1, f2 with
    | g1 + 1, g2 + 1 =>
      simp only [natDigitsAux]
      split
      · rfl
      · rw [ih (n / 10) (by omega) g1 g2 (by omega) (by omega)]

theorem natStr_step (n : Nat) :
    natStr n = if n < 10 then [digitChar n] else natStr (n / 10) ++ [digitChar (n % 10)] := by
  have h0 : natStr n
      = if n < 10 then [digitChar n] else natDigitsAux n (n / 10) ++ [digitChar (n % 10)] := rfl
  rw [h0]
  split
  · rfl
  · next hn =>
    rw [natDigitsAux_extra (n / 10) n (n / 10 + 1) (by omega) (by omega)]
    rfl

theorem natStr_all_digits (n : Nat) : ∀ c ∈ natStr n, c.isDigit = true := by
  induction n using Nat.strongRecOn with
  | _ n ih =>
    rw [natStr_step]
    split
    · intro c hc
      rw [List.mem_singleton.mp hc]
      exact digitChar_isDigit n
    · next hn =>
      intro c hc
      rcases List.mem_append.mp hc with h | h
      · exact ih (n / 10) (by omega) c h
      · rw [List.mem_singleton.mp h]
        exact digitChar_isDigit _

theorem natStr_ne_nil (n : Nat) : natStr n ≠ [] := by
  rw [natStr_step]
  split
  · simp
  · simp

theorem digitsVal_append_one (a : List Char) (c : Char) :
    digitsVal (a ++ [c]) = 10 * digitsVal a + (c.toNat - 48) := by
  unfold digitsVal
  rw [List.foldl_append]
  rfl

theorem digitsVal_natStr (n : Nat) : digitsVal (natStr n) = n := by
  induction n using Nat.strongRecOn with
  | _ n ih =>
    rw [natStr_step]
    split
    · next hn =>
      show digitsVal ([] ++ [digitChar n]) = n
      rw [digitsVal_append_one]
      have := digitChar_val n hn
      simp [digitsVal]
      omega
    · next hn =>
      rw [digitsVal_append_one, ih (n / 10) (by omega)]
      have := digitChar_val (n % 10) (by omega)
      omega

theorem takeWhile_append_all {p : Char → Bool} (a b : List Char)
    (ha : ∀ c ∈ a, p c = true) :
    (a ++ b).takeWhile p = a ++ b.takeWhile p := by
  induction a with
  | nil => rfl
  | cons c a ih =>
    rw [List.cons_append, List.takeWhile_cons, ha c (by simp),
      ih (fun x hx => ha x (by simp [hx]))]
    rfl

theorem natStr_head (n : Nat) : ∃ k t, natStr n = digitChar k :: t := by
  induction n using Nat.strongRecOn with
  | _ n ih =>
    rw [natStr_step]
    split
    · exact ⟨n, [], rfl⟩
    · next hn =>
      obtain ⟨k, t, hk⟩ := ih (n / 10) (by omega)
      exact ⟨k, t ++ [digitChar (n % 10)], by rw [hk]; rfl⟩

/-- Digits produced by `natStr`, followed by a continuation that does not
start with a digit, split back into the digits and the continuation. -/
theorem natStr_take_drop (m : Nat) (rest : List Char)
    (hr : rest.takeWhile Char.isDigit = []) :
    (natStr m ++ rest).takeWhile Char.isDigit = natStr m
      ∧ (natStr m ++ rest).drop (natStr m).length = rest := by
  constructor
  · rw [takeWhile_append_all _ _ (natStr_all_digits m), hr, List.append_nil]
  · exact List.drop_left _ _

theorem pInt_ws (c : Char) (r : List Char) (h : isJsonWs c = true) :
    pInt (c :: r) = pInt r := by
  unfold pInt
  rw [pWs_cons_ws _ _ h]

theorem pInt_not_ws (c : Char) (r : List Char) (h : isJsonWs c = false) :
    pInt (c :: r)
      = (if c = '-' then
          if (r.takeWhile Char.isDigit).isEmpty then none
          else some (-(digitsVal (r.takeWhile Char.isDigit) : Int),
            r.drop (r.takeWhile Char.isDigit).length)
        else
          if ((c :: r).takeWhile Char.isDigit).isEmpty then none
          else some ((digitsVal ((c :: r).takeWhile Char.isDigit) : Int),
            (c :: r).drop ((c :: r).takeWhile Char.isDigit).length)) := by
  unfold pInt
  rw [pWs_cons_not _ _ h]

theorem natStr_isEmpty (m : Nat) : (natStr m).isEmpty = false := by
  obtain ⟨k, t, hk⟩ := natStr_head m
  rw [hk]
  rfl

theorem pInt_render_sp (n : Int) (rest : List Char)
    (hr : rest.takeWhile Char.isDigit = []) :
    pInt (' ' :: (renderInt n ++ rest)) = some (n, rest) := by
  rw [pInt_ws _ _ (by decide)]
  by_cases hneg : n < 0
  · have hstr : renderInt n = '-' :: natStr (-n).toNat := by
      unfold renderInt
      rw [if_pos hneg]
    obtain ⟨htake, hdrop⟩ := natStr_take_drop (-n).toNat rest hr
    rw [hstr, List.cons_append, pInt_not_ws _ _ (by decide), if_pos rfl, htake,
      natStr_isEmpty, hdrop]
    simp only [Bool.false_eq_true, if_false, digitsVal_natStr]
    have hval : -((Int.toNat (-n) : Nat) : Int) = n := by omega
    rw [hval]
  · have hstr : renderInt n = natStr n.toNat := by
      unfold renderInt
      rw [if_neg hneg]
    obtain ⟨htake, hdrop⟩ := natStr_take_drop n.toNat rest hr
    obtain ⟨k, t, hk⟩ := natStr_head n.toNat
    rw [hstr, hk, List.cons_append, pInt_not_ws _ _ (digitChar_not_ws k),
      if_neg (digitChar_ne_minus k), ← List.cons_append, ← hk, htake,
      natStr_isEmpty, hdrop]
    simp only [Bool.false_eq_true, if_false, digitsVal_natStr]
    have hval : ((Int.toNat n : Nat) : Int) = n := by omega
    rw [hval]

theorem pExact_self (c : Char) (r : List Char) : pExact c (c :: r) = some r := by
  simp [pExact]

theorem pTok_cons (c : Char) (b : List Char) (hc : isJsonWs c = false) :
    pTok c (c :: b) = some b := by
  unfold pTok
  rw [pWs_cons_not _ _ hc]
  exact pExact_self c b

theorem pTok_sp (c : Char) (b : List Char) (hc : isJsonWs c = false) :
    pTok c (' ' :: (c :: b)) = some b := by
  unfold pTok
  rw [pWs_cons_ws _ _ (by decide), pWs_cons_not _ _ hc]
  exact pExact_self c b

theorem pTok_nl (c : Char) (b : List Char) (hc : isJsonWs c = false) :
    pTok c ('\n' :: (c :: b)) = some b := by
  unfold pTok
  rw [pWs_cons_ws _ _ (by decide), pWs_cons_not _ _ hc]
  exact pExact_self c b

theorem pTok_nl_sp (c : Char) (k : Nat) (b : List Char) (hc : isJsonWs c = false) :
    pTok c ('\n' :: (sp k ++ (c :: b))) = some b := by
  unfold pTok
  rw [pWs_cons_ws _ _ (by decide), pWs_sp, pWs_cons_not _ _ hc]
  exact pExact_self c b

theorem pTok_ne_cons (c c2 : Char) (b : List Char) (h2 : isJsonWs c2 = false)
    (hne : c2 ≠ c) : pTok c (c2 :: b) = none := by
  unfold pTok
  rw [pWs_cons_not _ _ h2]
  simp [pExact, hne]

theorem pTok_ne_nl_sp (c : Char) (k : Nat) (c2 : Char) (b : List Char)
    (h2 : isJsonWs c2 = false) (hne : c2 ≠ c) :
    pTok c ('\n' :: (sp k ++ (c2 :: b))) = none := by
  unfold pTok
  rw [pWs_cons_ws _ _ (by decide), pWs_sp, pWs_cons_not _ _ h2]
  simp [pExact, hne]

theorem pStrBody_quote (fuel : Nat) (rest : List Char) :
    pStrBody (fuel + 1) ('"' :: rest) = some ([], rest) := rfl

theorem pStrBody_other (fuel : Nat) (c : Char) (rest : List Char)
    (h1 : ¬ c = '"') (h2 : ¬ c = '\\') :
    pStrBody (fuel + 1) (c :: rest)
      = (pStrBody fuel rest).map fun pr => (c :: pr.1, pr.2) := by
  show (if c = '"' then some ([], rest)
      else if c = '\\' then _ else (pStrBody fuel rest).map fun pr => (c :: pr.1, pr.2))
    = (pStrBody fuel rest).map fun pr => (c :: pr.1, pr.2)
  rw [if_neg h1, if_neg h2]

theorem pStrBody_u (fuel : Nat) (h3 h4 : Char) (rest : List Char) :
    pStrBody (fuel + 1) ('\\' :: 'u' :: '0' :: '0' :: h3 :: h4 :: rest)
      = (pStrBody fuel rest).map fun pr =>
          (Char.ofNat (((hexVal '0' * 16 + hexVal '0') * 16 + hexVal h3) * 16 + hexVal h4)
            :: pr.1, pr.2) := rfl

theorem pStrBody_escape (s : List Char) :
    ∀ fuel rest, s.length < fuel →
      pStrBody fuel (escapeList s ++ ('"' :: rest)) = some (s, rest) := by
  induction s with
  | nil =>
    intro fuel rest h
    match fuel with
    | f + 1 => rfl
  | cons c s ih =>
    intro fuel rest h
    match fuel with
    | f + 1 =>
      have hf : s.length < f := by simpa using h
      simp only [escapeList, List.append_assoc]
      unfold escapeChar
      by_cases h1 : c = '"'
      · subst h1
        rw [if_pos rfl]
        show pStrBody (f + 1) ('\\' :: '"' :: (escapeList s ++ ('"' :: rest))) = _
        rw [show pStrBody (f + 1) ('\\' :: '"' :: (escapeList s ++ ('"' :: rest)))
            = (pStrBody f (escapeList s ++ ('"' :: rest))).map
                fun pr => ('"' :: pr.1, pr.2) from rfl, ih f rest hf]
        rfl
      · rw [if_neg h1]
        by_cases h2 : c = '\\'
        · subst h2
          rw [if_pos rfl]
          show pStrBody (f + 1) ('\\' :: '\\' :: (escapeList s ++ ('"' :: rest))) = _
          rw [show pStrBody (f + 1) ('\\' :: '\\' :: (escapeList s ++ ('"' :: rest)))
              = (pStrBody f (escapeList s ++ ('"' :: rest))).map
                  fun pr => ('\\' :: pr.1, pr.2) from rfl, ih f rest hf]
          rfl
        · rw [if_neg h2]
          by_cases h3 : c = '\n'
          · subst h3
            rw [if_pos rfl]
            show pStrBody (f + 1) ('\\' :: 'n' :: (escapeList s ++ ('"' :: rest))) = _
            rw [show pStrBody (f + 1) ('\\' :: 'n' :: (escapeList s ++ ('"' :: rest)))
                = (pStrBody f (escapeList s ++ ('"' :: rest))).map
                    fun pr => ('\n' :: pr.1, pr.2) from rfl, ih f rest hf]
            rfl
          · rw [if_neg h3]
            by_cases h4 : c = '\r'
            · subst h4
              rw [if_pos rfl]
              show pStrBody (f + 1) ('\\' :: 'r' :: (escapeList s ++ ('"' :: rest))) = _
              rw [show pStrBody (f + 1) ('\\' :: 'r' :: (escapeList s ++ ('"' :: rest)))
                  = (pStrBody f (escapeList s ++ ('"' :: rest))).map
                      fun pr => ('\r' :: pr.1, pr.2) from rfl, ih f rest hf]
              rfl
            · rw [if_neg h4]
              by_cases h5 : c = '\t'
              · subst h5
                rw [if_pos rfl]
                show pStrBody (f + 1) ('\\' :: 't' :: (escapeList s ++ ('"' :: rest))) = _
                rw [show pStrBody (f + 1) ('\\' :: 't' :: (escapeList s ++ ('"' :: rest)))
                    = (pStrBody f (escapeList s ++ ('"' :: rest))).map
                        fun pr => ('\t' :: pr.1, pr.2) from rfl, ih f rest hf]
                rfl
              · rw [if_neg h5]
                by_cases h6 : c = '\x08'
                · subst h6
                  rw [if_pos rfl]
                  show pStrBody (f + 1)
                      ('\\' :: 'b' :: (escapeList s ++ ('"' :: rest))) = _
                  rw [show pStrBody (f + 1) ('\\' :: 'b' :: (escapeList s ++ ('"' :: rest)))
                      = (pStrBody f (escapeList s ++ ('"' :: rest))).map
                          fun pr => ('\x08' :: pr.1, pr.2) from rfl, ih f rest hf]
                  rfl
                · rw [if_neg h6]
                  by_cases h7 : c = '\x0c'
                  · subst h7
                    rw [if_pos rfl]
                    show pStrBody (f + 1)
                        ('\\' :: 'f' :: (escapeList s ++ ('"' :: rest))) = _
                    rw [show pStrBody (f + 1)
                          ('\\' :: 'f' :: (escapeList s ++ ('"' :: rest)))
                        = (pStrBody f (escapeList s ++ ('"' :: rest))).map
                            fun pr => ('\x0c' :: pr.1, pr.2) from rfl, ih f rest hf]
                    rfl
                  · rw [if_neg h7]
                    by_cases h8 : c.toNat < 32
                    · rw [if_pos h8]
                      simp only [List.cons_append, List.nil_append]
                      rw [pStrBody_u, ih f rest hf]
                      have hhi : hexVal (hexDigitChar (c.toNat / 16)) = c.toNat / 16 :=
                        hexVal_hexDigitChar _ (by omega)
                      have hlo : hexVal (hexDigitChar (c.toNat % 16)) = c.toNat % 16 :=
                        hexVal_hexDigitChar _ (by omega)
                      have hv : hexVal '0' = 0 := rfl
                      rw [show (((hexVal '0' * 16 + hexVal '0') * 16
                            + hexVal (hexDigitChar (c.toNat / 16))) * 16
                            + hexVal (hexDigitChar (c.toNat % 16))) = c.toNat by
                        rw [hhi, hlo, hv]
                        omega]
                      rw [Char.ofNat_toNat]
                      rfl
                    · rw [if_neg h8]
                      simp only [List.cons_append, List.nil_append]
                      rw [pStrBody_other f c _ h1 h2, ih f rest hf]
                      rfl

theorem escapeChar_len_pos (c : Char) : 1 ≤ (escapeChar c).length := by
  unfold escapeChar
  split
  · simp
  · split
    · simp
    · split
      · simp
      · split
        · simp
        · split
          · simp
          · split
            · simp
            · split
              · simp
              · split
                · simp
                · simp

theorem escapeList_len (s : List Char) : s.length ≤ (escapeList s).length := by
  induction s with
  | nil => simp [escapeList]
  | cons c s ih =>
    rw [escapeList, List.length_append]
    have := escapeChar_len_pos c
    simp only [List.length_cons]
    omega

theorem pStr_render_sp (s : String) (rest : List Char) :
    pStr (' ' :: (renderStr s ++ rest)) = some (s, rest) := by
  unfold pStr pTok renderStr
  rw [pWs_cons_ws _ _ (by decide), List.cons_append, pWs_cons_not _ _ (by decide),
    pExact_self]
  show Option.map (fun pr => (String.mk pr.1, pr.2))
      (pStrBody ((escapeList s.toList ++ ['"']) ++ rest).length
        ((escapeList s.toList ++ ['"']) ++ rest)) = some (s, rest)
  rw [List.append_assoc, List.singleton_append]
  rw [pStrBody_escape s.toList _ rest (by
    rw [List.length_append, List.length_cons]
    have := escapeList_len s.toList
    omega)]
  rfl

theorem pKey_fieldSeg (ind : Nat) (k : String) (b : List Char) :
    pKey k (fieldSeg ind k ++ b) = some (' ' :: b) := by
  unfold pKey fieldSeg
  simp only [List.cons_append, List.append_assoc, List.nil_append]
  rw [pTok_nl_sp _ _ _ (by decide)]
  simp only [pLit_self, pExact_self]
  rw [pTok_cons _ _ (by decide)]

theorem pEntry_render_nl (e : TimeEntry) (rest : List Char) :
    pEntry ('\n' :: (sp 4 ++ (renderEntry e ++ rest))) = some (e, rest) := by
  have htokOpen : ∀ b, pTok '{' ('\n' :: (sp 4 ++ ('{' :: b))) = some b :=
    fun b => pTok_nl_sp _ _ _ (by decide)
  have hcomma : ∀ b, pTok ',' (',' :: b) = some b :=
    fun b => pTok_cons _ _ (by decide)
  have hclose : ∀ b, pTok '}' ('\n' :: (sp 4 ++ ('}' :: b))) = some b :=
    fun b => pTok_nl_sp _ _ _ (by decide)
  have hint : ∀ (n : Int) (x : List Char),
      pInt (' ' :: (renderInt n ++ (',' :: x))) = some (n, ',' :: x) :=
    fun n x => pInt_render_sp n _ rfl
  simp only [pEntry, renderEntry, List.cons_append, List.append_assoc,
    List.singleton_append, List.nil_append, htokOpen, pKey_fieldSeg, pStr_render_sp,
    hcomma, hint, hclose, Option.bind_eq_bind, Option.some_bind]

theorem pBrain_render_nl (b : BrainstormPrompt) (rest : List Char) :
    pBrain ('\n' :: (sp 4 ++ (renderBrain b ++ rest))) = some (b, rest) := by
  have htokOpen : ∀ x, pTok '{' ('\n' :: (sp 4 ++ ('{' :: x))) = some x :=
    fun x => pTok_nl_sp _ _ _ (by decide)
  have hcomma : ∀ x, pTok ',' (',' :: x) = some x :=
    fun x => pTok_cons _ _ (by decide)
  have hclose : ∀ x, pTok '}' ('\n' :: (sp 4 ++ ('}' :: x))) = some x :=
    fun x => pTok_nl_sp _ _ _ (by decide)
  simp only [pBrain, renderBrain, List.cons_append, List.append_assoc,
    List.singleton_append, List.nil_append, htokOpen, pKey_fieldSeg, pStr_render_sp,
    hcomma, hclose, Option.bind_eq_bind, Option.some_bind]

theorem pTok_rb_entry (e : TimeEntry) (y : List Char) :
    pTok ']' ('\n' :: (sp 4 ++ (renderEntry e ++ y))) = none := by
  unfold renderEntry
  simp only [List.cons_append, List.append_assoc]
  exact pTok_ne_nl_sp _ _ _ _ (by decide) (by decide)

theorem pTok_rb_brain (b : BrainstormPrompt) (y : List Char) :
    pTok ']' ('\n' :: (sp 4 ++ (renderBrain b ++ y))) = none := by
  unfold renderBrain
  simp only [List.cons_append, List.append_assoc]
  exact pTok_ne_nl_sp _ _ _ _ (by decide) (by decide)

theorem pEntriesTail_render :
    ∀ (es : List TimeEntry) (fuel : Nat) (rest : List Char), es.length < fuel →
      pEntriesTail fuel (renderEntryTail es ++ rest) = some (es, rest) := by
  intro es
  induction es with
  | nil =>
    intro fuel rest h
    match fuel with
    | f + 1 =>
      have hrb : pTok ']' ('\n' :: (sp 2 ++ (']' :: rest))) = some rest :=
        pTok_nl_sp _ _ _ (by decide)
      simp only [renderEntryTail, List.cons_append, List.append_assoc,
        List.singleton_append, List.nil_append, pEntriesTail, hrb]
  | cons e es ih =>
    intro fuel rest h
    match fuel with
    | f + 1 =>
      have ihh : pEntriesTail f (renderEntryTail es ++ rest) = some (es, rest) :=
        ih f rest (by simp only [List.length_cons] at h; omega)
      have hno : ∀ b, pTok ']' (',' :: b) = none :=
        fun b => pTok_ne_cons _ _ _ (by decide) (by decide)
      have hcomma : ∀ b, pTok ',' (',' :: b) = some b :=
        fun b => pTok_cons _ _ (by decide)
      simp only [renderEntryTail, List.cons_append, List.append_assoc, pEntriesTail,
        hno, hcomma, pEntry_render_nl, ihh, Option.bind_eq_bind, Option.some_bind]

theorem pBrainsTail_render :
    ∀ (bs : List BrainstormPrompt) (fuel : Nat) (rest : List Char), bs.length < fuel →
      pBrainsTail fuel (renderBrainTail bs ++ rest) = some (bs, rest) := by
  intro bs
  induction bs with
  | nil =>
    intro fuel rest h
    match fuel with
    | f + 1 =>
      have hrb : pTok ']' ('\n' :: (sp 2 ++ (']' :: rest))) = some rest :=
        pTok_nl_sp _ _ _ (by decide)
      simp only [renderBrainTail, List.cons_append, List.append_assoc,
        List.singleton_append, List.nil_append, pBrainsTail, hrb]
  | cons b bs ih =>
    intro fuel rest h
    match fuel with
    | f + 1 =>
      have ihh : pBrainsTail f (renderBrainTail bs ++ rest) = some (bs, rest) :=
        ih f rest (by simp only [List.length_cons] at h; omega)
      have hno : ∀ x, pTok ']' (',' :: x) = none :=
        fun x => pTok_ne_cons _ _ _ (by decide) (by decide)
      have hcomma : ∀ x, pTok ',' (',' :: x) = some x :=
        fun x => pTok_cons _ _ (by decide)
      simp only [renderBrainTail, List.cons_append, List.append_assoc, pBrainsTail,
        hno, hcomma, pBrain_render_nl, ihh, Option.bind_eq_bind, Option.some_bind]

theorem pEntries_render (fuel : Nat) (es : List TimeEntry) (rest : List Char)
    (h : es.length ≤ fuel) :
    pEntries fuel (' ' :: (renderEntryList es ++ rest)) = some (es, rest) := by
  cases es with
  | nil =>
    have hop : ∀ b, pTok '[' (' ' :: ('[' :: b)) = some b :=
      fun b => pTok_sp _ _ (by decide)
    have hcl : ∀ b, pTok ']' (']' :: b) = some b :=
      fun b => pTok_cons _ _ (by decide)
    simp only [renderEntryList, List.cons_append, List.nil_append, pEntries,
      hop, hcl, Option.bind_eq_bind, Option.some_bind]
  | cons e es =>
    have hop : ∀ b, pTok '[' (' ' :: ('[' :: b)) = some b :=
      fun b => pTok_sp _ _ (by decide)
    have htail : pEntriesTail fuel (renderEntryTail es ++ rest) = some (es, rest) :=
      pEntriesTail_render es fuel rest (by simp only [List.length_cons] at h; omega)
    simp only [renderEntryList, List.cons_append, List.append_assoc, pEntries,
      hop, pTok_rb_entry, pEntry_render_nl, htail, Option.bind_eq_bind,
      Option.some_bind]

theorem pBrains_render (fuel : Nat) (bs : List BrainstormPrompt) (rest : List Char)
    (h : bs.length ≤ fuel) :
    pBrains fuel (' ' :: (renderBrainList bs ++ rest)) = some (bs, rest) := by
  cases bs with
  | nil =>
    have hop : ∀ b, pTok '[' (' ' :: ('[' :: b)) = some b :=
      fun b => pTok_sp _ _ (by decide)
    have hcl : ∀ b, pTok ']' (']' :: b) = some b :=
      fun b => pTok_cons _ _ (by decide)
    simp only [renderBrainList, List.cons_append, List.nil_append, pBrains,
      hop, hcl, Option.bind_eq_bind, Option.some_bind]
  | cons b bs =>
    have hop : ∀ x, pTok '[' (' ' :: ('[' :: x)) = some x :=
      fun x => pTok_sp _ _ (by decide)
    have htail : pBrainsTail fuel (renderBrainTail bs ++ rest) = some (bs, rest) :=
      pBrainsTail_render bs fuel rest (by simp only [List.length_cons] at h; omega)
    simp only [renderBrainList, List.cons_append, List.append_assoc, pBrains,
      hop, pTok_rb_brain, pBrain_render_nl, htail, Option.bind_eq_bind,
      Option.some_bind]

theorem pDoc_render (fuel : Nat) (d : Document) (rest : List Char)
    (h1 : d.entries.length ≤ fuel) (h2 : d.brainstorms.length ≤ fuel) :
    pDoc fuel (renderDoc d ++ rest) = some (d, rest) := by
  have hop : ∀ b, pTok '{' ('{' :: b) = some b :=
    fun b => pTok_cons _ _ (by decide)
  have hcomma : ∀ b, pTok ',' (',' :: b) = some b :=
    fun b => pTok_cons _ _ (by decide)
  have hcl : ∀ b, pTok '}' ('\n' :: ('}' :: b)) = some b :=
    fun b => pTok_nl _ _ (by decide)
  have hes : pEntries fuel (' ' :: (renderEntryList d.entries
      ++ (',' :: (fieldSeg 2 "brainstorms" ++ (renderBrainList d.brainstorms
      ++ ('\n' :: '}' :: rest))))))
      = some (d.entries, ',' :: (fieldSeg 2 "brainstorms" ++ (renderBrainList d.brainstorms
          ++ ('\n' :: '}' :: rest)))) := pEntries_render fuel d.entries _ h1
  have hbs : pBrains fuel (' ' :: (renderBrainList d.brainstorms
      ++ ('\n' :: '}' :: rest)))
      = some (d.brainstorms, '\n' :: '}' :: rest) := pBrains_render fuel d.brainstorms _ h2
  simp only [pDoc, renderDoc, List.cons_append, List.append_assoc,
    List.singleton_append, List.nil_append, hop, pKey_fieldSeg, hes, hcomma, hbs,
    hcl, Option.bind_eq_bind, Option.some_bind]

theorem renderEntryTail_len (es : List TimeEntry) :
    es.length ≤ (renderEntryTail es).length := by
  induction es with
  | nil => simp [renderEntryTail]
  | cons e es ih =>
    simp only [renderEntryTail, List.length_cons, List.length_append]
    omega

theorem renderEntryList_len (es : List TimeEntry) :
    es.length ≤ (renderEntryList es).length := by
  cases es with
  | nil => simp [renderEntryList]
  | cons e es =>
    have := renderEntryTail_len es
    simp only [renderEntryList, List.length_cons, List.length_append]
    omega

theorem renderBrainTail_len (bs : List BrainstormPrompt) :
    bs.length ≤ (renderBrainTail bs).length := by
  induction bs with
  | nil => simp [renderBrainTail]
  | cons b bs ih =>
    simp only [renderBrainTail, List.length_cons, List.length_append]
    omega

theorem renderBrainList_len (bs : List BrainstormPrompt) :
    bs.length ≤ (renderBrainList bs).length := by
  cases bs with
  | nil => simp [renderBrainList]
  | cons b bs =>
    have := renderBrainTail_len bs
    simp only [renderBrainList, List.length_cons, List.length_append]
    omega

theorem renderDoc_len (d : Document) :
    d.entries.length ≤ (renderDoc d).length
      ∧ d.brainstorms.length ≤ (renderDoc d).length := by
  have h1 := renderEntryList_len d.entries
  have h2 := renderBrainList_len d.brainstorms
  simp only [renderDoc, List.length_cons, List.length_append]
  omega

/-- The full storage round trip: parsing the rendered document recovers it
exactly. -/
theorem load_storage_save_storage (d : Document) :
    load_storage (save_storage d) = .ok d := by
  unfold load_storage save_storage
  have htl : (String.mk (renderDoc d)).toList = renderDoc d := rfl
  have hlen : (String.mk (renderDoc d)).length = (renderDoc d).length := rfl
  rw [htl, hlen]
  have h := pDoc_render (renderDoc d).length d [] (renderDoc_len d).1 (renderDoc_len d).2
  rw [List.append_nil] at h
  rw [h]
  rfl

/-- Embedding of `add_entry` (src/time_manager/cli.py, lines 83-86) over the
text-modelled storage: load the document, append the dict of the entry to
`payload["entries"]`, save the document. -/
def add_entry (fileText : String) (e : TimeEntry) : Except String String :=
  match load_storage fileText with
  | .error msg => .error msg
  | .ok doc => .ok (save_storage ⟨doc.entries ++ [e], doc.brainstorms⟩)

/-- C8: saving a document with `save_storage` and loading it back with
`load_storage` yields an equal document — entries and brainstorms equal
element-wise with order preserved (stated as equality of the documents,
which is element-wise equality of both ordered sequences). -/
theorem storage_round_trip :
    ∀ d : Document, load_storage (save_storage d) = .ok d :=
  load_storage_save_storage

/-- C9: `add_entry` appends exactly the given entry at the end of the
stored entries sequence and changes nothing else — all previously stored
entries keep their values and positions (they form the unchanged prefix
`d.entries` of the new sequence) and the brainstorms sequence is unchanged;
loading the stored result gives exactly the old document with the one entry
appended. -/
theorem add_entry_frame :
    ∀ (d : Document) (e : TimeEntry),
      add_entry (save_storage d) e
          = .ok (save_storage ⟨d.entries ++ [e], d.brainstorms⟩)
        ∧ load_storage (save_storage ⟨d.entries ++ [e], d.brainstorms⟩)
            = .ok ⟨d.entries ++ [e], d.brainstorms⟩ :=
  fun d e =>
    ⟨by unfold add_entry; rw [load_storage_save_storage d],
      load_storage_save_storage ⟨d.entries ++ [e], d.brainstorms⟩⟩

end TimeManager
